import Mathlib

/-!
Shallow embedding of `src/main.py` (tzhsoj-assignment-checker).

The markup consumed by the scraper is modelled by the abstract structure it
actually inspects: a page holds a sequence of tables (each a sequence of rows,
each row a sequence of cells) and a sequence of anchor elements.  A cell's
`getText` models `get_text(strip=True)`: `some s` is the trimmed text, `none`
models an extraction fault (the exception caught by the per-row `try`).
The network is modelled as an environment mapping a page number to either a
fetched page or a transport error (`requests.exceptions.RequestException`,
which also covers the `raise_for_status` path).
-/

namespace TZHSOJ

/-- A `<td>` cell: `getText` is the stripped text, or `none` when text
extraction faults. -/
structure Td where
  getText : Option String
deriving DecidableEq, Repr

/-- A `<tr>` row: its sequence of `<td>` cells. -/
structure Tr where
  tds : List Td
deriving DecidableEq, Repr

/-- A `<table>` element: its sequence of `<tr>` rows (header included). -/
structure HtmlTable where
  trs : List Tr
deriving DecidableEq, Repr

/-- An `<a>` element: its visible text and its class attribute list
(`get('class', [])` yields `[]` when the attribute is absent). -/
structure Anchor where
  text : String
  classes : List String
deriving DecidableEq, Repr

/-- A page of markup, reduced to what the scraper inspects: its tables in
document order and its anchors in document order. -/
structure Page where
  tables : List HtmlTable
  anchors : List Anchor
deriving DecidableEq, Repr

/-- One parsed submission record (the dict built in
`parse_submission_page`, lines 101-110 of src/main.py). -/
structure Submission where
  time : String
  problem : String
  user : String
  language : String
  status : String
  score : String
  time_used : String
  memory_used : String
deriving DecidableEq, Repr

/-- Parse one data row (the loop body, lines 95-114): skip the row when it has
fewer than 7 cells; otherwise read cells 0..6 (and cell 7 when present) in the
order the dict literal evaluates them, skipping the row if any read faults. -/
def parseRow (r : Tr) : Option Submission :=
  if r.tds.length < 7 then none
  else
    ((r.tds.get? 0).bind Td.getText).bind fun t0 =>
    ((r.tds.get? 1).bind Td.getText).bind fun t1 =>
    ((r.tds.get? 2).bind Td.getText).bind fun t2 =>
    ((r.tds.get? 3).bind Td.getText).bind fun t3 =>
    ((r.tds.get? 4).bind Td.getText).bind fun t4 =>
    ((r.tds.get? 5).bind Td.getText).bind fun t5 =>
    ((r.tds.get? 6).bind Td.getText).bind fun t6 =>
    (if 7 < r.tds.length then (r.tds.get? 7).bind Td.getText
     else some "N/A").bind fun t7 =>
    some ⟨t0, t1, t2, t3, t4, t5, t6, t7⟩

/-- `parse_submission_page` (lines 76-116): take the first table (no table ⇒
empty result), drop the header row, and fold the remaining rows through
`parseRow`, keeping the rows that parse. -/
def parse_submission_page (page : Page) : List Submission :=
  match page.tables with
  | [] => []
  | t :: _ => (t.trs.drop 1).filterMap parseRow

/-- `has_next_page` (lines 118-130): find the first anchor whose text is
exactly "Next"; absent ⇒ false, else true iff its class list lacks
"disabled". -/
def has_next_page (page : Page) : Bool :=
  match page.anchors.find? (fun a => a.text == "Next") with
  | none => false
  | some a => ! a.classes.contains "disabled"

/-- A transport-layer failure (timeout, connection error, or the error raised
by `raise_for_status`), carrying a diagnostic message. -/
def TransportError := String

/-- The network environment for one (user, problem) pair: page number ↦
fetched markup or transport failure. -/
def FetchEnv := Nat → Except TransportError Page

/-- The `while page <= max_pages` loop of `fetch_submissions` (lines 36-72),
with `fuel = max_pages - page + 1` the number of iterations the bound still
allows, and `calls` counting fetches issued so far.  Each iteration issues
exactly one fetch; a transport error, an empty parse, or a missing next-page
control stops the loop, otherwise the page index advances. -/
def fetchLoopAux (fetch : FetchEnv) : Nat → Nat → List Submission → Nat →
    List Submission × Nat
  | 0, _, acc, calls => (acc, calls)
  | fuel + 1, page, acc, calls =>
    match fetch page with
    | .error _ => (acc, calls + 1)
    | .ok pg =>
      if (parse_submission_page pg).isEmpty then (acc, calls + 1)
      else if has_next_page pg then
        fetchLoopAux fetch fuel (page + 1)
          (acc ++ parse_submission_page pg) (calls + 1)
      else (acc ++ parse_submission_page pg, calls + 1)

/-- Run the collection loop from page 1 with an empty accumulator. -/
def fetchRun (fetch : FetchEnv) (maxPages : Nat) : List Submission × Nat :=
  fetchLoopAux fetch maxPages 1 [] 0

/-- `fetch_submissions` (lines 21-74): the records accumulated by the loop. -/
def fetch_submissions (fetch : FetchEnv) (maxPages : Nat) : List Submission :=
  (fetchRun fetch maxPages).1

/-- The number of fetch calls (`session.get`) issued by `fetch_submissions`. -/
def fetchCalls (fetch : FetchEnv) (maxPages : Nat) : Nat :=
  (fetchRun fetch maxPages).2

/-- The outcome evaluation inside `checker` (lines 152-158): scan the records
in order; append 1 on the first record whose `time` field equals
"100Accepted" (and break), append 0 when the loop exhausts the list. -/
def checkerOutcome : List Submission → Nat
  | [] => 0
  | s :: rest => if s.time = "100Accepted" then 1 else checkerOutcome rest

/-- Username generation in `main` (line 173):
`usernameFormat+str(i) if i > 9 else usernameFormat + '0' + str(i)`. -/
def genUsername (pfx : String) (i : Nat) : String :=
  if i > 9 then pfx ++ Nat.repr i else pfx ++ "0" ++ Nat.repr i

/-- The outcome `checker` records for one (username, problem) job: `checker`
collects with `max_pages=5` and appends the evaluation bit.  The environment
maps (username, problem id) to that job's network behaviour. -/
def jobOutcome (env : String → String → FetchEnv) (u pid : String) : Nat :=
  checkerOutcome (fetch_submissions (env u pid) 5)

/-- The batch loop of `main` (lines 172-176): for each index 1..counts derive
a username, initialise its row to `[]`, and run `checker` once per problem id
in argument order; the `result` dict is modelled as an association list in
insertion order. -/
def runBatch (env : String → String → FetchEnv) (pfx : String) (counts : Nat)
    (pids : List String) : List (String × List Nat) :=
  (List.range' 1 counts).map fun i =>
    let u := genUsername pfx i
    (u, pids.map fun pid => jobOutcome env u pid)

/-- The text of cell `i` of a row, when it exists and extracts cleanly. -/
def cellText (r : Tr) (i : Nat) : String :=
  (((r.tds.get? i).bind Td.getText).getD "")

/-- A well-formed data row in the sense of the markup contract: at least 7
cells, every cell's text extraction succeeding. -/
def wellFormedRow (r : Tr) : Prop :=
  7 ≤ r.tds.length ∧ ∀ td ∈ r.tds, td.getText ≠ none

instance (r : Tr) : Decidable (wellFormedRow r) := by
  unfold wellFormedRow; infer_instance

/-- The record the spec assigns to a well-formed row: positional cells 0..6,
`memory_used` from cell 7 when present, else "N/A". -/
def rowRecord (r : Tr) : Submission :=
  { time := cellText r 0
    problem := cellText r 1
    user := cellText r 2
    language := cellText r 3
    status := cellText r 4
    score := cellText r 5
    time_used := cellText r 6
    memory_used := if 7 < r.tds.length then cellText r 7 else "N/A" }

/-- A per-cell extraction fault on a cell the row loop actually reads:
cells 0..6 always, cell 7 only when the row has more than 7 cells (an index
`i < 8` with `i < length` is exactly such a cell). -/
def extractionFault (r : Tr) : Prop :=
  ∃ i, i < 8 ∧ i < r.tds.length ∧ (r.tds.get? i).bind Td.getText = none

/-! ### Helper lemmas -/

lemma checkerOutcome_eq_ite (l : List Submission) :
    checkerOutcome l = if ∃ r ∈ l, r.time = "100Accepted" then 1 else 0 := by
  induction l with
  | nil => simp [checkerOutcome]
  | cons s rest ih =>
    by_cases h : s.time = "100Accepted"
    · simp [checkerOutcome, h]
    · have hcond : (∃ r ∈ s :: rest, r.time = "100Accepted") ↔
          ∃ r ∈ rest, r.time = "100Accepted" := by
        constructor
        · rintro ⟨r, hr, hr2⟩
          rcases List.mem_cons.mp hr with rfl | hr3
          · exact absurd hr2 h
          · exact ⟨r, hr3, hr2⟩
        · rintro ⟨r, hr, hr2⟩
          exact ⟨r, List.mem_cons_of_mem s hr, hr2⟩
      rw [show checkerOutcome (s :: rest) = checkerOutcome rest from by
        simp [checkerOutcome, h], ih]
      exact if_congr hcond.symm rfl rfl

lemma checkerOutcome_zero_or_one (l : List Submission) :
    checkerOutcome l = 0 ∨ checkerOutcome l = 1 := by
  rw [checkerOutcome_eq_ite]
  split
  · exact Or.inr rfl
  · exact Or.inl rfl

/-! ### Claim theorems -/

/-- C1: the outcome evaluation scans the records in collection order and
returns 1 exactly when some record's `time` field equals the literal
"100Accepted", returning 1 on the first match without inspecting later
records, and 0 otherwise — in particular 0 on the empty sequence. -/
theorem checkerOutcome_spec (l l1 l2 l3 : List Submission) (s : Submission) :
    (checkerOutcome l = 1 ↔ ∃ r ∈ l, r.time = "100Accepted") ∧
    (checkerOutcome l = 0 ↔ ∀ r ∈ l, r.time ≠ "100Accepted") ∧
    checkerOutcome ([] : List Submission) = 0 ∧
    (s.time = "100Accepted" →
      checkerOutcome (l1 ++ s :: l2) = 1 ∧
      checkerOutcome (l1 ++ s :: l2) = checkerOutcome (l1 ++ s :: l3)) := by
  have key : ∀ m : List Submission,
      (checkerOutcome m = 1 ↔ ∃ r ∈ m, r.time = "100Accepted") ∧
      (checkerOutcome m = 0 ↔ ∀ r ∈ m, r.time ≠ "100Accepted") := by
    intro m
    rw [checkerOutcome_eq_ite]
    constructor
    · constructor
      · intro h
        by_contra hc
        rw [if_neg hc] at h
        exact absurd h (by decide)
      · intro h; rw [if_pos h]
    · constructor
      · intro h
        by_contra hc
        push_neg at hc
        obtain ⟨r, hr, hr2⟩ := hc
        rw [if_pos ⟨r, hr, hr2⟩] at h
        exact absurd h (by decide)
      · intro h
        rw [if_neg]
        rintro ⟨r, hr, hr2⟩
        exact h r hr hr2
  refine ⟨(key l).1, (key l).2, rfl, fun hs => ⟨?_, ?_⟩⟩
  · exact (key _).1.mpr ⟨s, by simp, hs⟩
  · rw [(key _).1.mpr ⟨s, by simp, hs⟩, (key _).1.mpr ⟨s, by simp, hs⟩]

/-- A full-score record and a non-matching record, for concrete instances. -/
def subA : Submission :=
  ⟨"100Accepted", "P1000", "stu01", "C++", "Accepted", "100", "1ms", "N/A"⟩

/-- A record whose `time` field is an ordinary timestamp. -/
def subB : Submission :=
  ⟨"2024-01-01 10:00", "P1000", "stu01", "C++", "Wrong Answer", "0", "1ms", "N/A"⟩

theorem checkerOutcome_spec_witness :
    checkerOutcome ([] ++ subA :: [subB]) = 1 ∧
    checkerOutcome ([] ++ subA :: [subB]) = checkerOutcome ([] ++ subA :: []) :=
  (checkerOutcome_spec [] [] [subB] [] subA).2.2.2 rfl

/-- C8: for 1 ≤ i, the generated username is the prefix, then "0", then the
decimal digit of i when i ≤ 9, and the prefix followed by the undecorated
decimal digits of i when i > 9; member_count = 12 yields the prefixed
sequence 01..09 then 10..12. -/
theorem genUsername_spec (pfx : String) (i : Nat) (h : 1 ≤ i) :
    (i ≤ 9 → genUsername pfx i = pfx ++ "0" ++ Nat.repr i) ∧
    (9 < i → genUsername pfx i = pfx ++ Nat.repr i) ∧
    (List.range' 1 12).map (genUsername pfx) =
      [pfx ++ "01", pfx ++ "02", pfx ++ "03", pfx ++ "04", pfx ++ "05",
       pfx ++ "06", pfx ++ "07", pfx ++ "08", pfx ++ "09", pfx ++ "10",
       pfx ++ "11", pfx ++ "12"] := by
  have hsmall : ∀ j : Nat, 1 ≤ j → j ≤ 9 →
      genUsername pfx j = pfx ++ "0" ++ Nat.repr j := by
    intro j h1 h9
    unfold genUsername
    rw [if_neg (by omega)]
  have hbig : ∀ j : Nat, 9 < j → genUsername pfx j = pfx ++ Nat.repr j := by
    intro j h9
    unfold genUsername
    rw [if_pos h9]
  refine ⟨fun h9 => hsmall i h h9, fun h9 => hbig i h9, ?_⟩
  have e1 : List.range' 1 12 = [1, 2, 3, 4, 5, 6, 7, 8, 9, 10, 11, 12] := by decide
  rw [e1]
  simp only [List.map_cons, List.map_nil]
  rw [hsmall 1 (by omega) (by omega), hsmall 2 (by omega) (by omega),
    hsmall 3 (by omega) (by omega), hsmall 4 (by omega) (by omega),
    hsmall 5 (by omega) (by omega), hsmall 6 (by omega) (by omega),
    hsmall 7 (by omega) (by omega), hsmall 8 (by omega) (by omega),
    hsmall 9 (by omega) (by omega), hbig 10 (by omega), hbig 11 (by omega),
    hbig 12 (by omega)]
  simp only [String.append_assoc]
  exact rfl

theorem genUsername_spec_witness :
    genUsername "stu" 3 = "stu" ++ "0" ++ Nat.repr 3 ∧
    genUsername "stu" 10 = "stu" ++ Nat.repr 10 :=
  ⟨(genUsername_spec "stu" 3 (by decide)).1 (by decide),
   (genUsername_spec "stu" 10 (by decide)).2.1 (by decide)⟩

lemma find?_next_eq_some (pre post : List Anchor) (a : Anchor)
    (hpre : ∀ b ∈ pre, b.text ≠ "Next") (ha : a.text = "Next") :
    (pre ++ a :: post).find? (fun x => x.text == "Next") = some a := by
  induction pre with
  | nil =>
    simp only [List.nil_append]
    exact List.find?_cons_of_pos _ (by simp [ha])
  | cons b bs ih =>
    have hb : (b.text == "Next") = false := by
      simp [hpre b (List.mem_cons_self b bs)]
    rw [List.cons_append, List.find?_cons_of_neg _ (by simp [hb])]
    exact ih fun x hx => hpre x (List.mem_cons_of_mem b hx)

lemma has_next_page_no_match (ts : List HtmlTable) (ancs : List Anchor)
    (h : ∀ b ∈ ancs, b.text ≠ "Next") : has_next_page ⟨ts, ancs⟩ = false := by
  unfold has_next_page
  rw [show ancs.find? (fun x => x.text == "Next") = none from
    List.find?_eq_none.mpr fun x hx => by simp [h x hx]]

lemma has_next_page_found (ts : List HtmlTable) (pre post : List Anchor)
    (a : Anchor) (hpre : ∀ b ∈ pre, b.text ≠ "Next") (ha : a.text = "Next") :
    has_next_page ⟨ts, pre ++ a :: post⟩ = ! a.classes.contains "disabled" := by
  unfold has_next_page
  rw [find?_next_eq_some pre post a hpre ha]

/-- C4: `has_next_page` is true exactly when the located "Next" anchor (the
first anchor whose text is exactly "Next", after any non-matching anchors) is
present and its class list lacks "disabled"; with no such anchor, or a
disabled one, it is false. -/
theorem has_next_page_spec (ts : List HtmlTable) (pre post : List Anchor)
    (a : Anchor) :
    ((∀ b ∈ pre, b.text ≠ "Next") → a.text = "Next" →
      (has_next_page ⟨ts, pre ++ a :: post⟩ = true ↔ "disabled" ∉ a.classes)) ∧
    (∀ ancs : List Anchor, (∀ b ∈ ancs, b.text ≠ "Next") →
      has_next_page ⟨ts, ancs⟩ = false) := by
  constructor
  · intro hpre ha
    rw [has_next_page_found ts pre post a hpre ha]
    simp
  · exact has_next_page_no_match ts

theorem has_next_page_spec_witness :
    has_next_page ⟨[], [⟨"Prev", []⟩, ⟨"Next", []⟩]⟩ = true ∧
    has_next_page ⟨[], [⟨"Prev", []⟩, ⟨"Last", ["disabled"]⟩]⟩ = false :=
  ⟨((has_next_page_spec [] [⟨"Prev", []⟩] [] ⟨"Next", []⟩).1
      (by decide) rfl).mpr (by decide),
   (has_next_page_spec [] [] [] ⟨"Next", []⟩).2
      [⟨"Prev", []⟩, ⟨"Last", ["disabled"]⟩] (by decide)⟩

/-- C10: `has_next_page` is decided solely by the first anchor in document
order whose text is exactly "Next": with that anchor disabled, a later
enabled "Next" anchor changes nothing (the result ignores everything after
the first match), and anchors whose text merely contains "Next" with extra
characters or whitespace never match. -/
theorem has_next_page_first_anchor :
    has_next_page ⟨[], [⟨"Next", ["disabled"]⟩, ⟨"Next", []⟩]⟩ = false ∧
    (∀ (ts : List HtmlTable) (pre post post2 : List Anchor) (a : Anchor),
      (∀ b ∈ pre, b.text ≠ "Next") → a.text = "Next" →
      has_next_page ⟨ts, pre ++ a :: post⟩ =
        has_next_page ⟨ts, pre ++ a :: post2⟩) ∧
    (∀ (ts : List HtmlTable) (ancs : List Anchor),
      (∀ b ∈ ancs, b.text ≠ "Next") → has_next_page ⟨ts, ancs⟩ = false) ∧
    has_next_page ⟨[], [⟨"Next page", []⟩, ⟨" Next ", []⟩, ⟨"next", []⟩]⟩
      = false := by
  refine ⟨by decide, ?_, fun ts ancs h => has_next_page_no_match ts ancs h,
    by decide⟩
  intro ts pre post post2 a hpre ha
  rw [has_next_page_found ts pre post a hpre ha,
    has_next_page_found ts pre post2 a hpre ha]

theorem has_next_page_first_anchor_witness :
    has_next_page ⟨[], [⟨"Next", ["disabled"]⟩, ⟨"Next", []⟩]⟩ =
      has_next_page ⟨[], [⟨"Next", ["disabled"]⟩]⟩ :=
  has_next_page_first_anchor.2.1 [] [] [⟨"Next", []⟩] []
    ⟨"Next", ["disabled"]⟩ (by decide) rfl

lemma cell_some (r : Tr) (k : Nat) (hk : k < r.tds.length)
    (hwf : ∀ td ∈ r.tds, td.getText ≠ none) :
    (r.tds.get? k).bind Td.getText = some (cellText r k) := by
  obtain ⟨s, hs⟩ := Option.ne_none_iff_exists'.mp
    (hwf (r.tds.get ⟨k, hk⟩) (List.get_mem r.tds k hk))
  rw [cellText, List.get?_eq_get hk, Option.some_bind, hs]
  rfl

lemma parseRow_wf (r : Tr) (h : wellFormedRow r) :
    parseRow r = some (rowRecord r) := by
  obtain ⟨hlen, hwf⟩ := h
  have c : ∀ k, k < r.tds.length →
      (r.tds.get? k).bind Td.getText = some (cellText r k) :=
    fun k hk => cell_some r k hk hwf
  unfold parseRow
  rw [if_neg (Nat.not_lt.mpr hlen)]
  simp only [c 0 (by omega), c 1 (by omega), c 2 (by omega), c 3 (by omega),
    c 4 (by omega), c 5 (by omega), c 6 (by omega), Option.some_bind]
  by_cases h7 : 7 < r.tds.length
  · rw [if_pos h7, c 7 h7, Option.some_bind, rowRecord, if_pos h7]
  · rw [if_neg h7, Option.some_bind, rowRecord, if_neg h7]

lemma filterMap_parseRow_wf (rows : List Tr)
    (hwf : ∀ r ∈ rows, wellFormedRow r) :
    rows.filterMap parseRow = rows.map rowRecord := by
  induction rows with
  | nil => rfl
  | cons r rs ih =>
    rw [List.filterMap_cons_some (parseRow_wf r (hwf r (List.mem_cons_self r rs))),
      List.map_cons, ih fun x hx => hwf x (List.mem_cons_of_mem r hx)]

/-- C2: on a page whose first table has a header row followed by well-formed
data rows, parsing returns exactly one record per data row, in row order,
with each field taken positionally from cells 0..6 and `memory_used` from
cell 7 when present, else "N/A" (the content of `rowRecord`). -/
theorem parse_submission_page_spec (tbl : HtmlTable) (hdr : Tr)
    (rows : List Tr) (ts : List HtmlTable) (ancs : List Anchor)
    (htbl : tbl.trs = hdr :: rows) (hwf : ∀ r ∈ rows, wellFormedRow r) :
    parse_submission_page ⟨tbl :: ts, ancs⟩ = rows.map rowRecord ∧
    (parse_submission_page ⟨tbl :: ts, ancs⟩).length = rows.length := by
  have he : parse_submission_page ⟨tbl :: ts, ancs⟩ = rows.map rowRecord := by
    rw [show parse_submission_page ⟨tbl :: ts, ancs⟩ =
        (tbl.trs.drop 1).filterMap parseRow from rfl, htbl,
      List.drop_succ_cons, List.drop_zero, filterMap_parseRow_wf rows hwf]
  exact ⟨he, by rw [he, List.length_map]⟩

/-- A header row (its cells are never read). -/
def hdrW : Tr := ⟨[⟨some "When"⟩, ⟨some "Problem"⟩]⟩

/-- A well-formed 7-cell data row. -/
def rowW : Tr :=
  ⟨[⟨some "100Accepted"⟩, ⟨some "P1000"⟩, ⟨some "stu01"⟩, ⟨some "C++"⟩,
    ⟨some "Accepted"⟩, ⟨some "100"⟩, ⟨some "1ms"⟩]⟩

/-- A table holding the header and one data row. -/
def tableW : HtmlTable := ⟨[hdrW, rowW]⟩

/-- A page whose table parses to one record and whose "Next" anchor is
enabled. -/
def pageW : Page := ⟨[tableW], [⟨"Next", []⟩]⟩

theorem parse_submission_page_spec_witness :
    parse_submission_page pageW = [rowW].map rowRecord ∧
    (parse_submission_page pageW).length = 1 :=
  parse_submission_page_spec tableW hdrW [rowW] [] [⟨"Next", []⟩] rfl
    (by decide)

lemma parseRow_short (r : Tr) (h : r.tds.length < 7) : parseRow r = none := by
  unfold parseRow
  rw [if_pos h]

lemma parseRow_fault (r : Tr) (hf : extractionFault r) : parseRow r = none := by
  obtain ⟨i, hi8, hilen, hnone⟩ := hf
  by_cases hlen : r.tds.length < 7
  · exact parseRow_short r hlen
  · by_contra hne
    obtain ⟨sub, hsub⟩ := Option.ne_none_iff_exists'.mp hne
    unfold parseRow at hsub
    rw [if_neg hlen] at hsub
    obtain ⟨t0, h0, hsub⟩ := Option.bind_eq_some.mp hsub
    obtain ⟨t1, h1, hsub⟩ := Option.bind_eq_some.mp hsub
    obtain ⟨t2, h2, hsub⟩ := Option.bind_eq_some.mp hsub
    obtain ⟨t3, h3, hsub⟩ := Option.bind_eq_some.mp hsub
    obtain ⟨t4, h4, hsub⟩ := Option.bind_eq_some.mp hsub
    obtain ⟨t5, h5, hsub⟩ := Option.bind_eq_some.mp hsub
    obtain ⟨t6, h6, hsub⟩ := Option.bind_eq_some.mp hsub
    obtain ⟨t7, h7, hsub⟩ := Option.bind_eq_some.mp hsub
    interval_cases i
    · rw [hnone] at h0; exact Option.noConfusion h0
    · rw [hnone] at h1; exact Option.noConfusion h1
    · rw [hnone] at h2; exact Option.noConfusion h2
    · rw [hnone] at h3; exact Option.noConfusion h3
    · rw [hnone] at h4; exact Option.noConfusion h4
    · rw [hnone] at h5; exact Option.noConfusion h5
    · rw [hnone] at h6; exact Option.noConfusion h6
    · rw [if_pos hilen, hnone] at h7; exact Option.noConfusion h7

/-- C3: a data row with fewer than 7 cells, or one whose per-cell extraction
faults, is dropped from the parse without affecting sibling rows: the result
equals the parse of the same page with the bad row removed, and every
remaining well-formed row still yields its record. -/
theorem parse_malformed_row_spec (hdr bad : Tr) (pre post : List Tr)
    (ts : List HtmlTable) (ancs : List Anchor)
    (hbad : bad.tds.length < 7 ∨ extractionFault bad) :
    parse_submission_page ⟨⟨hdr :: (pre ++ bad :: post)⟩ :: ts, ancs⟩ =
      parse_submission_page ⟨⟨hdr :: (pre ++ post)⟩ :: ts, ancs⟩ ∧
    ((∀ r ∈ pre ++ post, wellFormedRow r) →
      parse_submission_page ⟨⟨hdr :: (pre ++ bad :: post)⟩ :: ts, ancs⟩ =
        (pre ++ post).map rowRecord) := by
  have hnone : parseRow bad = none :=
    hbad.elim (parseRow_short bad) (parseRow_fault bad)
  have he : parse_submission_page ⟨⟨hdr :: (pre ++ bad :: post)⟩ :: ts, ancs⟩ =
      (pre ++ post).filterMap parseRow := by
    rw [show parse_submission_page ⟨⟨hdr :: (pre ++ bad :: post)⟩ :: ts, ancs⟩ =
        ((hdr :: (pre ++ bad :: post)).drop 1).filterMap parseRow from rfl,
      List.drop_succ_cons, List.drop_zero, List.filterMap_append,
      List.filterMap_cons_none hnone, ← List.filterMap_append]
  have he2 : parse_submission_page ⟨⟨hdr :: (pre ++ post)⟩ :: ts, ancs⟩ =
      (pre ++ post).filterMap parseRow := by
    rw [show parse_submission_page ⟨⟨hdr :: (pre ++ post)⟩ :: ts, ancs⟩ =
        ((hdr :: (pre ++ post)).drop 1).filterMap parseRow from rfl,
      List.drop_succ_cons, List.drop_zero]
  exact ⟨he.trans he2.symm,
    fun hwf => he.trans (filterMap_parseRow_wf _ hwf)⟩

/-- A malformed 2-cell row. -/
def badRowW : Tr := ⟨[⟨some "x"⟩, ⟨some "y"⟩]⟩

theorem parse_malformed_row_spec_witness :
    parse_submission_page ⟨⟨[hdrW, badRowW, rowW]⟩ :: [], []⟩ =
      parse_submission_page ⟨⟨[hdrW, rowW]⟩ :: [], []⟩ ∧
    parse_submission_page ⟨⟨[hdrW, badRowW, rowW]⟩ :: [], []⟩ =
      [rowW].map rowRecord := by
  have h := parse_malformed_row_spec hdrW badRowW [] [rowW] [] []
    (Or.inl (by decide))
  exact ⟨h.1, h.2 (by decide)⟩

lemma fetchLoopAux_stop_error (fetch : FetchEnv) (fuel page : Nat)
    (acc : List Submission) (calls : Nat) (e : TransportError)
    (h : fetch page = .error e) :
    fetchLoopAux fetch (fuel + 1) page acc calls = (acc, calls + 1) := by
  simp only [fetchLoopAux, h]

lemma fetchLoopAux_stop_empty (fetch : FetchEnv) (fuel page : Nat)
    (acc : List Submission) (calls : Nat) (pg : Page)
    (hok : fetch page = .ok pg) (hemp : parse_submission_page pg = []) :
    fetchLoopAux fetch (fuel + 1) page acc calls = (acc, calls + 1) := by
  simp only [fetchLoopAux, hok, hemp, List.isEmpty_nil, if_true]

lemma fetchLoopAux_calls_le (fetch : FetchEnv) :
    ∀ (fuel page : Nat) (acc : List Submission) (calls : Nat),
      (fetchLoopAux fetch fuel page acc calls).2 ≤ calls + fuel := by
  intro fuel
  induction fuel with
  | zero => intro page acc calls; simp [fetchLoopAux]
  | succ n ih =>
    intro page acc calls
    cases hf : fetch page with
    | error e =>
      rw [fetchLoopAux_stop_error fetch n page acc calls e hf]
      simp
    | ok pg =>
      simp only [fetchLoopAux, hf]
      by_cases hemp : (parse_submission_page pg).isEmpty
      · rw [if_pos hemp]
        simp
      · rw [if_neg hemp]
        by_cases hnext : has_next_page pg = true
        · rw [if_pos hnext]
          have h := ih (page + 1) (acc ++ parse_submission_page pg) (calls + 1)
          omega
        · rw [if_neg hnext]
          simp

/-- C5: the collection loop starts at page index 1, issues at most
`maxPages` fetch calls, and (being a total function) always terminates,
for every network behaviour. -/
theorem fetchCalls_le (fetch : FetchEnv) (maxPages : Nat) :
    fetchCalls fetch maxPages ≤ maxPages ∧
    fetchCalls fetch maxPages = (fetchLoopAux fetch maxPages 1 [] 0).2 := by
  constructor
  · have h := fetchLoopAux_calls_le fetch maxPages 1 [] 0
    simpa [fetchCalls, fetchRun] using h
  · rfl

lemma fetchLoopAux_error_run (fetch : FetchEnv) (pages : Nat → Page)
    (e : TransportError) :
    ∀ (fuel page : Nat) (acc : List Submission) (calls p : Nat),
      page ≤ p → p < page + fuel →
      (∀ i, page ≤ i → i < p → fetch i = .ok (pages i) ∧
        parse_submission_page (pages i) ≠ [] ∧
        has_next_page (pages i) = true) →
      fetch p = .error e →
      (fetchLoopAux fetch fuel page acc calls).1 =
        acc ++ ((List.range' page (p - page)).map
          fun i => parse_submission_page (pages i)).flatten := by
  intro fuel
  induction fuel with
  | zero => intro page acc calls p h1 h2 _ _; omega
  | succ n ih =>
    intro page acc calls p h1 h2 hall herr
    rcases Nat.eq_or_lt_of_le h1 with rfl | hlt
    · rw [fetchLoopAux_stop_error fetch n page acc calls e herr]
      simp
    · obtain ⟨hok, hne, hnx⟩ := hall page le_rfl hlt
      simp only [fetchLoopAux, hok]
      rw [if_neg (by simp [hne]), if_pos hnx,
        ih (page + 1) (acc ++ parse_submission_page (pages page)) (calls + 1)
          p hlt (by omega) (fun i hi1 hi2 => hall i (by omega) hi2) herr,
        show p - page = (p - (page + 1)) + 1 by omega, List.range'_succ]
      simp [List.append_assoc]

/-- C6: when fetching page p fails with a transport error while every earlier
page succeeded with a nonempty parse and an enabled next-page control, the
collection stops and returns exactly the records accumulated from pages
1..p-1; the failure is absorbed (the collector is a total function into
record lists and raises nothing). -/
theorem fetch_submissions_error_spec (fetch : FetchEnv) (pages : Nat → Page)
    (maxPages p : Nat) (e : TransportError) (h1 : 1 ≤ p) (h2 : p ≤ maxPages)
    (hall : ∀ i, 1 ≤ i → i < p → fetch i = .ok (pages i) ∧
      parse_submission_page (pages i) ≠ [] ∧ has_next_page (pages i) = true)
    (herr : fetch p = .error e) :
    fetch_submissions fetch maxPages =
      ((List.range' 1 (p - 1)).map
        fun i => parse_submission_page (pages i)).flatten := by
  have h := fetchLoopAux_error_run fetch pages e maxPages 1 [] 0 p h1
    (by omega) hall herr
  simpa [fetch_submissions, fetchRun] using h

/-- A network that serves `pageW` but fails on page 2 with a timeout. -/
def envErrW : FetchEnv := fun n => if n = 2 then .error "timeout" else .ok pageW

theorem fetch_submissions_error_spec_witness :
    fetch_submissions envErrW 5 = [subA] := by
  have h := fetch_submissions_error_spec envErrW (fun _ => pageW) 5 2 "timeout"
    (by decide) (by decide)
    (by
      intro i hi1 hi2
      have hi : i = 1 := by omega
      subst hi
      exact ⟨rfl, by decide, by decide⟩)
    rfl
  rw [h]
  decide

/-- C7: a fetched page that parses to zero records stops the collection with
the records accumulated so far, and a first page whose markup has no table
ends the collection after exactly one fetch with an empty result. -/
theorem fetch_stops_on_empty_page (fetch : FetchEnv) (maxPages fuel page : Nat)
    (acc : List Submission) (calls : Nat) (pg pg1 : Page) :
    (fetch page = .ok pg → parse_submission_page pg = [] →
      fetchLoopAux fetch (fuel + 1) page acc calls = (acc, calls + 1)) ∧
    (1 ≤ maxPages → fetch 1 = .ok pg1 → pg1.tables = [] →
      fetch_submissions fetch maxPages = [] ∧
      fetchCalls fetch maxPages = 1) := by
  constructor
  · exact fun hok hemp =>
      fetchLoopAux_stop_empty fetch fuel page acc calls pg hok hemp
  · intro hmax hok htab
    obtain ⟨m, rfl⟩ : ∃ m, maxPages = m + 1 := ⟨maxPages - 1, by omega⟩
    have hemp : parse_submission_page pg1 = [] := by
      rw [parse_submission_page, htab]
    have hrun : fetchLoopAux fetch (m + 1) 1 [] 0 = ([], 1) :=
      fetchLoopAux_stop_empty fetch m 1 [] 0 pg1 hok hemp
    exact ⟨by rw [fetch_submissions, fetchRun, hrun],
      by rw [fetchCalls, fetchRun, hrun]⟩

/-- A network whose every page has no table element. -/
def envEmptyW : FetchEnv := fun _ => .ok ⟨[], []⟩

theorem fetch_stops_on_empty_page_witness :
    fetch_submissions envEmptyW 4 = [] ∧ fetchCalls envEmptyW 4 = 1 :=
  (fetch_stops_on_empty_page envEmptyW 4 0 1 [] 0 ⟨[], []⟩ ⟨[], []⟩).2
    (by decide) rfl rfl

/-- C9: the batch always completes: the grid has one entry per generated
username, in index order, and every entry carries exactly one outcome in
{0,1} per problem id, in the argument order of the problem ids, the same for
every username; a job whose collection fails on its first fetch is still
recorded, with outcome 0. -/
theorem runBatch_spec (env : String → String → FetchEnv) (pfx : String)
    (counts : Nat) (pids : List String) :
    (runBatch env pfx counts pids).map Prod.fst =
      (List.range' 1 counts).map (genUsername pfx) ∧
    (runBatch env pfx counts pids).length = counts ∧
    (∀ entry ∈ runBatch env pfx counts pids,
      entry.2.length = pids.length ∧
      (∀ b ∈ entry.2, b = 0 ∨ b = 1) ∧
      entry.2 = pids.map (jobOutcome env entry.1)) ∧
    (∀ (u pid : String) (e : TransportError), env u pid 1 = .error e →
      jobOutcome env u pid = 0) := by
  refine ⟨?_, ?_, ?_, ?_⟩
  · rw [runBatch, List.map_map]
    rfl
  · rw [runBatch, List.length_map, List.length_range']
  · intro entry hentry
    rw [runBatch] at hentry
    obtain ⟨i, hi, rfl⟩ := List.mem_map.mp hentry
    refine ⟨by simp, ?_, rfl⟩
    intro b hb
    obtain ⟨pid, hpid, rfl⟩ := List.mem_map.mp hb
    exact (checkerOutcome_zero_or_one _).elim Or.inl Or.inr
  · intro u pid e herr
    have hcoll : fetch_submissions (env u pid) 5 = [] := by
      rw [fetch_submissions, fetchRun,
        show (5 : Nat) = 4 + 1 from rfl,
        fetchLoopAux_stop_error (env u pid) 4 1 [] 0 e herr]
    rw [jobOutcome, hcoll]
    rfl

/-- A batch network on which every fetch fails. -/
def envBatchW : String → String → FetchEnv := fun _ _ _ => .error "down"

theorem runBatch_spec_witness :
    jobOutcome envBatchW "stu01" "P1000" = 0 ∧
    (runBatch envBatchW "stu" 2 ["P1000"]).length = 2 :=
  ⟨(runBatch_spec envBatchW "stu" 2 ["P1000"]).2.2.2 "stu01" "P1000"
      "down" rfl,
   (runBatch_spec envBatchW "stu" 2 ["P1000"]).2.1⟩

end TZHSOJ
